import Mathlib

/-!
Shallow embedding of gensim/models/phrases.py: the exact dictionary counter
(DictWordCounter), the count-min sketch counter (CMSketchCounter), vocabulary
learning (Phrases.learn_vocab / Phrases.add_vocab), pruning (prune_vocab) and
the collocation transform (Phrases.__getitem__ on a single sentence).

Modelling conventions:
* Tokens are byte strings; they are modelled post-normalization, i.e.
  utils.any2utf8 and utils.to_unicode are the identity on canonical tokens.
* Python machine integers are modelled as Int (counts never approach 2^31 in
  any claim, so int32 overflow of the numpy table is not modelled).
* Python floats in the score computation are modelled as rationals: the score
  expression is a composition of exact field operations, and every claim is
  about the shape of the formula and sign comparisons, not float rounding.
* Python dicts are association lists with unique keys, preserving insertion
  order; a defaultdict(int) lookup of an absent key yields 0.
* The opaque Python hash of a key (abs(hash(key))) and the randomly drawn
  hash coefficients of the sketch are explicit parameters of the sketch state.
-/

namespace GensimPhrases

/-- Tokens are modelled post-normalization. -/
abbrev Token := String

/-- DictWordCounter: a defaultdict(int) mapping keys to integer counts,
modelled as an insertion-ordered association list with unique keys. -/
abbrev Vocab := List (Token × Int)

/-- delimiter.join(bigram): join two tokens with the delimiter. -/
def join (delim a b : Token) : Token := a ++ delim ++ b

/-- DictWordCounter.update_counts: self[key] += increment, creating the entry
with default 0 if absent (inserted at the end, as Python dicts do). -/
def updateCounts : Vocab → Token → Int → Vocab
  | [], k, c => [(k, c)]
  | (k0, v0) :: rest, k, c =>
      if k0 = k then (k0, v0 + c) :: rest else (k0, v0) :: updateCounts rest k c

/-- Dictionary lookup with defaultdict(int) semantics: absent keys give 0. -/
def getCount : Vocab → Token → Int
  | [], _ => 0
  | (k0, v0) :: rest, k => if k0 = k then v0 else getCount rest k

/-- Python `key in dict` membership test. -/
def containsV : Vocab → Token → Bool
  | [], _ => false
  | (k0, _) :: rest, k => if k0 = k then true else containsV rest k

/-- len() of the exact counter: number of tracked keys. -/
def vocabLen (v : Vocab) : Nat := v.length

/-- prune_vocab: delete every entry whose count is <= min_reduce. -/
def pruneVocab (v : Vocab) (minReduce : Int) : Vocab :=
  v.filter (fun kv => decide (minReduce < kv.2))

/-- Helper: whether an Except-modelled constructor succeeded. -/
def exceptOk {α : Type} : Except String α → Bool
  | .ok _ => true
  | .error _ => false

/-- The configuration stored by Phrases.__init__ (the counter itself is carried
separately, since its type depends on exact_count). -/
structure PhrasesConfig where
  min_count : ℚ
  threshold : ℚ
  max_vocab_size : Int
  exact_count : Bool
  delimiter : Token
  min_reduce : Nat
  deriving DecidableEq, Repr

/-- Phrases.__init__ (validation and configuration storage; the
sentences-is-None path, so add_vocab is not run). Raises ValueError iff
min_count <= 0 or threshold <= 0; otherwise stores the configuration with
min_reduce initialized to 1. -/
def phrasesInit (minCount threshold : ℚ) (maxVocabSize : Int) (delim : Token)
    (exactCount : Bool) : Except String PhrasesConfig :=
  if minCount ≤ 0 then .error "min_count should be at least 1"
  else if threshold ≤ 0 then .error "threshold should be positive"
  else .ok ⟨minCount, threshold, maxVocabSize, exactCount, delim, 1⟩

/-- CMSketchCounter.__init__ validation: raises ValueError iff delta or
epsilon lies outside the open interval (0,1). (The subsequent derivation of
the table dimensions, random hash coefficients and zero table always succeeds
and is modelled by the explicit sketch state below.) -/
def cmsketchInit (delta epsilon : ℚ) : Except String Unit :=
  if delta ≤ 0 ∨ 1 ≤ delta then .error "delta must be between 0 and 1, exclusive"
  else if epsilon ≤ 0 ∨ 1 ≤ epsilon then .error "epsilon must be between 0 and 1, exclusive"
  else .ok ()

/-- Keys of an exact counter. -/
def vocabKeys (v : Vocab) : List Token := v.map Prod.fst

lemma containsV_eq_true_iff (v : Vocab) (k : Token) :
    containsV v k = true ↔ k ∈ vocabKeys v := by
  induction v with
  | nil => simp [containsV, vocabKeys]
  | cons kv rest ih =>
      obtain ⟨k0, v0⟩ := kv
      by_cases h : k0 = k
      · subst h
        simp [containsV, vocabKeys]
      · simp [containsV, vocabKeys, h, ih, Ne.symm h]

lemma vocabKeys_pruneVocab_subset (v : Vocab) (m : Int) :
    vocabKeys (pruneVocab v m) ⊆ vocabKeys v := by
  intro x hx
  obtain ⟨kv, hkv, he⟩ := List.mem_map.mp hx
  exact he ▸ List.mem_map_of_mem _ (List.mem_of_mem_filter hkv)

lemma getCount_pruneVocab (v : Vocab) (m : Int) (hnd : (vocabKeys v).Nodup)
    (k : Token) (h : containsV (pruneVocab v m) k = true) :
    getCount (pruneVocab v m) k = getCount v k := by
  induction v with
  | nil => simp [pruneVocab, containsV] at h
  | cons kv rest ih =>
      obtain ⟨k0, v0⟩ := kv
      have hnd0 : (k0 :: vocabKeys rest).Nodup := hnd
      have hnd1 : k0 ∉ vocabKeys rest := (List.nodup_cons.mp hnd0).1
      have hnd2 : (vocabKeys rest).Nodup := (List.nodup_cons.mp hnd0).2
      by_cases hc : m < v0
      · have hp : pruneVocab ((k0, v0) :: rest) m = (k0, v0) :: pruneVocab rest m := by
          simp [pruneVocab, hc]
        by_cases hk : k0 = k
        · subst hk
          simp [hp, getCount]
        · rw [hp] at h
          simp only [containsV, if_neg hk] at h
          simp [hp, getCount, hk, ih hnd2 h]
      · have hp : pruneVocab ((k0, v0) :: rest) m = pruneVocab rest m := by
          simp [pruneVocab, hc]
        rw [hp] at h
        have hk : k0 ≠ k := by
          intro he
          subst he
          exact hnd1 (vocabKeys_pruneVocab_subset rest m ((containsV_eq_true_iff _ _).mp h))
        simp [hp, getCount, hk, ih hnd2 h]

lemma containsV_pruneVocab (v : Vocab) (m : Int) (k : Token)
    (h1 : containsV v k = true) (h2 : m < getCount v k) :
    containsV (pruneVocab v m) k = true := by
  induction v with
  | nil => simp [containsV] at h1
  | cons kv rest ih =>
      obtain ⟨k0, v0⟩ := kv
      by_cases hk : k0 = k
      · subst hk
        have hc : m < v0 := by simpa [getCount] using h2
        simp [pruneVocab, hc, containsV]
      · simp only [containsV, if_neg hk] at h1
        simp only [getCount, if_neg hk] at h2
        by_cases hc : m < v0
        · simp [pruneVocab, hc, containsV, hk]
          simpa [pruneVocab] using ih h1 h2
        · simpa [pruneVocab, hc] using ih h1 h2

/-- C6: prune_vocab removes exactly the keys with count <= m: every surviving
entry has count > m, every entry with count > m survives, surviving keys keep
their counts unchanged, and every key whose count exceeds m is still present. -/
theorem phrases_C6 (v : Vocab) (m : Int) (hnd : (vocabKeys v).Nodup) :
    (∀ kv ∈ pruneVocab v m, m < kv.2)
    ∧ (∀ kv ∈ v, m < kv.2 → kv ∈ pruneVocab v m)
    ∧ (∀ k, containsV (pruneVocab v m) k = true →
        getCount (pruneVocab v m) k = getCount v k)
    ∧ (∀ k, containsV v k = true → m < getCount v k →
        containsV (pruneVocab v m) k = true) := by
  refine ⟨?_, ?_, ?_, ?_⟩
  · intro kv h
    have := List.of_mem_filter h
    exact of_decide_eq_true this
  · intro kv h hm
    exact List.mem_filter.mpr ⟨h, decide_eq_true hm⟩
  · intro k h
    exact getCount_pruneVocab v m hnd k h
  · intro k h1 h2
    exact containsV_pruneVocab v m k h1 h2

/-- Witness for C6 at a concrete counter. -/
theorem phrases_C6_witness :
    (∀ kv ∈ pruneVocab [("a", 1), ("b", 5)] 2, (2 : Int) < kv.2)
    ∧ containsV (pruneVocab [("a", 1), ("b", 5)] 2) "b" = true := by
  have h := phrases_C6 [("a", 1), ("b", 5)] 2 (by decide)
  exact ⟨h.1, h.2.2.2 "b" (by decide) (by decide)⟩

/-- C10: Phrases construction fails iff min_count <= 0 or threshold <= 0;
approximate-counter construction fails iff delta or epsilon is outside (0,1);
on success the configuration is stored as given, with min_reduce = 1. -/
theorem phrases_C10 (mc thr : ℚ) (cap : Int) (delim : Token) (ex : Bool)
    (delta epsilon : ℚ) :
    (exceptOk (phrasesInit mc thr cap delim ex) = true ↔ (0 < mc ∧ 0 < thr))
    ∧ (exceptOk (cmsketchInit delta epsilon) = true ↔
        (0 < delta ∧ delta < 1 ∧ 0 < epsilon ∧ epsilon < 1))
    ∧ (∀ cfg, phrasesInit mc thr cap delim ex = .ok cfg →
        cfg = ⟨mc, thr, cap, ex, delim, 1⟩) := by
  refine ⟨?_, ?_, ?_⟩
  · unfold phrasesInit
    split_ifs with h1 h2
    · simp only [exceptOk, Bool.false_eq_true, false_iff]
      rintro ⟨ha, _⟩
      exact absurd h1 (not_le.mpr ha)
    · simp only [exceptOk, Bool.false_eq_true, false_iff]
      rintro ⟨_, hb⟩
      exact absurd h2 (not_le.mpr hb)
    · simp only [exceptOk, true_iff]
      exact ⟨lt_of_not_le h1, lt_of_not_le h2⟩
  · unfold cmsketchInit
    split_ifs with h1 h2
    · simp only [exceptOk, Bool.false_eq_true, false_iff]
      rintro ⟨ha, hb, _, _⟩
      rcases h1 with h | h
      · exact absurd h (not_le.mpr ha)
      · exact absurd h (not_le.mpr hb)
    · simp only [exceptOk, Bool.false_eq_true, false_iff]
      rintro ⟨_, _, hc, hd⟩
      rcases h2 with h | h
      · exact absurd h (not_le.mpr hc)
      · exact absurd h (not_le.mpr hd)
    · push_neg at h1 h2
      simp only [exceptOk, true_iff]
      exact ⟨h1.1, h1.2, h2.1, h2.2⟩
  · intro cfg h
    unfold phrasesInit at h
    split_ifs at h
    exact (Except.ok.inj h).symm

/-- Witness for C10: valid parameters are accepted with the configuration
stored as given, and invalid parameters are rejected. -/
theorem phrases_C10_witness :
    exceptOk (phrasesInit 5 10 40000000 "_" false) = true
    ∧ exceptOk (cmsketchInit (1/100) (1/2)) = true
    ∧ exceptOk (phrasesInit 0 10 40000000 "_" false) = false
    ∧ exceptOk (cmsketchInit 2 (1/2)) = false
    ∧ (⟨5, 10, 40000000, false, "_", 1⟩ : PhrasesConfig)
        = ⟨5, 10, 40000000, false, "_", 1⟩ := by
  have h1 : ¬ exceptOk (phrasesInit 0 10 40000000 "_" false) = true := by
    intro ht
    have := (phrases_C10 0 10 40000000 "_" false (1/100) (1/2)).1.mp ht
    norm_num at this
  have h2 : ¬ exceptOk (cmsketchInit 2 (1/2)) = true := by
    intro ht
    have := (phrases_C10 5 10 40000000 "_" false 2 (1/2)).2.1.mp ht
    norm_num at this
  refine ⟨(phrases_C10 5 10 40000000 "_" false (1/100) (1/2)).1.mpr (by norm_num),
    (phrases_C10 5 10 40000000 "_" false (1/100) (1/2)).2.1.mpr (by norm_num),
    Bool.eq_false_iff.mpr h1, Bool.eq_false_iff.mpr h2,
    (phrases_C10 5 10 40000000 "_" false (1/100) (1/2)).2.2 _ (by norm_num [phrasesInit])⟩

/-- The large prime of the sketch hash family (_PRIME in the source). -/
def PRIME : Nat := 66405897020462343733

/-- sys.maxint on a 64-bit Python 2 build. -/
def MAXINT : Int := 9223372036854775807

/-- CMSketchCounter state. The width w and the (a, b) coefficients of each
row's hash function are fixed at construction (the coefficients are drawn
randomly there, so they are explicit state here); keyHash models the opaque
Python abs(hash(key)); count is the d x w table (d = hashCoeffs.length) of
int32 cells, modelled as Int. The constructor sets self.conservative = True
unconditionally, so only the conservative branch of update_counts is
modelled. Well-formed states have hashCoeffs.length = count.length and every
row of length w. -/
structure CMSketchCounter where
  w : Nat
  hashCoeffs : List (Nat × Nat)
  keyHash : Token → Nat
  count : List (List Int)

/-- One member of the pairwise-independent hash family:
((a * x + b) mod PRIME) mod w. -/
def hashApply (w : Nat) (ab : Nat × Nat) (x : Nat) : Nat :=
  ((ab.1 * x + ab.2) % PRIME) % w

/-- CMSketchCounter.__getitem__: the minimum over rows of the addressed
cells, starting from sys.maxint. Rows are paired with their hash functions
(the source enumerates hash_functions and indexes count by row; for
well-formed states the zip is the same pairing). Cells are always addressed
in range for well-formed states, so getD's default is never used. -/
def sketchGet (sk : CMSketchCounter) (key : Token) : Int :=
  (List.zip sk.count sk.hashCoeffs).foldl
    (fun value rc => min (rc.1.getD (hashApply sk.w rc.2 (sk.keyHash key)) 0) value)
    MAXINT

/-- CMSketchCounter.update_counts with conservative=True, faithful to the
source including its reading of the current estimate of the literal string
"key": the source line is chat = self["key"], not chat = self[key]. -/
def sketchUpdateCounts (sk : CMSketchCounter) (key : Token) (c : Int) : CMSketchCounter :=
  let chat := sketchGet sk "key"
  let newCount := List.zipWith
    (fun rowvals ab =>
      let column := hashApply sk.w ab (sk.keyHash key)
      rowvals.set column (max (rowvals.getD column 0) (c + chat)))
    sk.count sk.hashCoeffs
  { sk with count := newCount }

/-- Modelled from the spec: the conservative update as specified, reading
chat = get(k) for the key k actually being updated. It differs from
sketchUpdateCounts only in which key's estimate is read. -/
def sketchUpdateCountsSpec (sk : CMSketchCounter) (key : Token) (c : Int) : CMSketchCounter :=
  let chat := sketchGet sk key
  let newCount := List.zipWith
    (fun rowvals ab =>
      let column := hashApply sk.w ab (sk.keyHash key)
      rowvals.set column (max (rowvals.getD column 0) (c + chat)))
    sk.count sk.hashCoeffs
  { sk with count := newCount }

/-- CMSketchCounter.__len__: the constant 0. -/
def sketchLen (_sk : CMSketchCounter) : Nat := 0

/-- A concrete sketch state: one row, width 4, hash coefficients a = 1,
b = 0 (so the column is x mod 4), key hash = string length, so "k" addresses
column 1 and "key" addresses column 3. -/
def bugSketch : CMSketchCounter :=
  ⟨4, [(1, 0)], String.length, [[0, 5, 0, 9]]⟩

/-- The same sketch with an all-zero table. -/
def bugSketch0 : CMSketchCounter :=
  ⟨4, [(1, 0)], String.length, [[0, 0, 0, 0]]⟩

/-- C2 (code bug): update_counts does not read chat = get(k) for the key k
being updated; it reads the estimate of the literal string "key". At a state
where get("k") = 5 and get("key") = 9, updating "k" by 1 stores
max(5, 1 + 9) = 10 in the addressed cell, while the specified conservative
update stores max(5, 1 + 5) = 6. -/
theorem phrases_C2_bug :
    sketchGet bugSketch "k" = 5
    ∧ sketchGet bugSketch "key" = 9
    ∧ (sketchUpdateCounts bugSketch "k" 1).count = [[0, 10, 0, 9]]
    ∧ (sketchUpdateCountsSpec bugSketch "k" 1).count = [[0, 6, 0, 9]]
    ∧ [[(0 : Int), 10, 0, 9]] ≠ [[0, 6, 0, 9]] := by decide

/-- C3 (code bug): starting from the all-zero sketch, two update_counts
increments of 1 on key "k" (non-negative increments) leave get("k") = 1,
strictly below the true total 2: the sketch underestimates, because chat is
read for the literal "key" instead of the updated key. The update modelled
from the spec yields 2 as required. -/
theorem phrases_C3_bug :
    sketchGet (sketchUpdateCounts (sketchUpdateCounts bugSketch0 "k" 1) "k" 1) "k" = 1
    ∧ sketchGet (sketchUpdateCountsSpec (sketchUpdateCountsSpec bugSketch0 "k" 1) "k" 1) "k" = 1 + 1
    ∧ (1 : Int) < 1 + 1 := by decide

/-- The counter interface as used (duck-typed) by Phrases.__getitem__:
membership, indexed lookup (as a rational, matching the float() coercion) and
len(), together with the model configuration relevant to the transform. -/
structure TCfg where
  exact_count : Bool
  min_count : ℚ
  threshold : ℚ
  delimiter : Token
  ccontains : Token → Bool
  cget : Token → ℚ
  clen : Nat

/-- Modelled from the spec: the score is 0 when pa <= 0 or pb <= 0, and
otherwise (pab - min_count) / pa / pb * threshold * N. -/
def scoreSpec (mc thr : ℚ) (N : Nat) (pa pb pab : ℚ) : ℚ :=
  if pa ≤ 0 ∨ pb ≤ 0 then 0 else (pab - mc) / pa / pb * thr * (N : ℚ)

/-- The score of an adjacent pair under a configuration. -/
def scoreOf (cfg : TCfg) (bg : Token × Token) : ℚ :=
  scoreSpec cfg.min_count cfg.threshold cfg.clen (cfg.cget bg.1) (cfg.cget bg.2)
    (cfg.cget (join cfg.delimiter bg.1 bg.2))

/-- One iteration of the Phrases.__getitem__ loop over adjacent pairs; the
state is (new_s, last_bigram). Mirrors the source: presence checks guard the
scoring in exact mode, the score is the code's inline expression, a merge
appends the joined token and sets last_bigram, and otherwise the left token
is appended unless the previous pair consumed it, resetting last_bigram. -/
def transformStep (cfg : TCfg) : List Token × Bool → Token × Token → List Token × Bool
  | (acc, lastB), bg =>
    if cfg.exact_count = false ∨ (cfg.ccontains bg.1 = true ∧ cfg.ccontains bg.2 = true) then
      let bigramWord := join cfg.delimiter bg.1 bg.2
      if (cfg.exact_count = false ∨ cfg.ccontains bigramWord = true) ∧ lastB = false then
        let pa := cfg.cget bg.1
        let pb := cfg.cget bg.2
        let pab := cfg.cget bigramWord
        let score : ℚ :=
          if 0 < pa ∧ 0 < pb then
            (pab - cfg.min_count) / pa / pb * cfg.threshold * (cfg.clen : ℚ)
          else 0
        if cfg.threshold < score then (acc ++ [bigramWord], true)
        else (if lastB = false then acc ++ [bg.1] else acc, false)
      else (if lastB = false then acc ++ [bg.1] else acc, false)
    else (if lastB = false then acc ++ [bg.1] else acc, false)

/-- The Phrases.__getitem__ loop over zip(s, s[1:]). -/
def transformLoop (cfg : TCfg) (s : List Token) : List Token × Bool :=
  (s.zip s.tail).foldl (transformStep cfg) ([], false)

/-- The final-token emission of Phrases.__getitem__ (the `if s:` block),
applied to the loop result and s.getLast?. -/
def finalAppend (cfg : TCfg) (st : List Token × Bool) : Option Token → List Token
  | none => st.1
  | some lastToken =>
      if cfg.exact_count = false ∨ (cfg.ccontains lastToken = true ∧ st.2 = false) then
        st.1 ++ [lastToken]
      else st.1

/-- Phrases.__getitem__ on a single sentence (tokens modelled
post-normalization): the loop followed by the final-token emission. -/
def transform (cfg : TCfg) (s : List Token) : List Token :=
  finalAppend cfg (transformLoop cfg s) s.getLast?

/-- The exact-mode instantiation of the counter interface. -/
def exactCfg (mc thr : ℚ) (delim : Token) (v : Vocab) : TCfg :=
  ⟨true, mc, thr, delim, containsV v, fun k => (getCount v k : ℚ), vocabLen v⟩

/-- The approximate-mode instantiation. The membership function is never
evaluated in this mode (every `in self.vocab` test in the source sits behind
a short-circuiting `(not self.exact_count) or ...`), so its value is an
arbitrary constant here. -/
def approxCfg (mc thr : ℚ) (delim : Token) (sk : CMSketchCounter) : TCfg :=
  ⟨false, mc, thr, delim, fun _ => false, fun k => (sketchGet sk k : ℚ), sketchLen sk⟩

/-- The condition under which the loop merges pair bg from a state whose
last_bigram flag is clear. -/
def mergeCond (cfg : TCfg) (bg : Token × Token) : Prop :=
  (cfg.exact_count = false ∨ (cfg.ccontains bg.1 = true ∧ cfg.ccontains bg.2 = true))
  ∧ (cfg.exact_count = false ∨ cfg.ccontains (join cfg.delimiter bg.1 bg.2) = true)
  ∧ cfg.threshold < scoreOf cfg bg

instance mergeCondDecidable (cfg : TCfg) (bg : Token × Token) :
    Decidable (mergeCond cfg bg) := by
  unfold mergeCond
  infer_instance

lemma score_code_eq_spec (mc thr : ℚ) (N : Nat) (pa pb pab : ℚ) :
    (if 0 < pa ∧ 0 < pb then (pab - mc) / pa / pb * thr * (N : ℚ) else 0)
      = scoreSpec mc thr N pa pb pab := by
  unfold scoreSpec
  by_cases h : 0 < pa ∧ 0 < pb
  · rw [if_pos h, if_neg]
    push_neg
    exact ⟨h.1, h.2⟩
  · rw [if_neg h, if_pos]
    by_cases hpa : 0 < pa
    · refine Or.inr ?_
      by_contra hpb
      exact h ⟨hpa, lt_of_not_le hpb⟩
    · exact Or.inl (not_lt.mp hpa)

lemma transformStep_false (cfg : TCfg) (acc : List Token) (bg : Token × Token) :
    transformStep cfg (acc, false) bg =
      if mergeCond cfg bg then (acc ++ [join cfg.delimiter bg.1 bg.2], true)
      else (acc ++ [bg.1], false) := by
  by_cases h1 : cfg.exact_count = false
      ∨ (cfg.ccontains bg.1 = true ∧ cfg.ccontains bg.2 = true)
  · by_cases h2 : cfg.exact_count = false
        ∨ cfg.ccontains (join cfg.delimiter bg.1 bg.2) = true
    · by_cases h3 : cfg.threshold < scoreSpec cfg.min_count cfg.threshold cfg.clen
          (cfg.cget bg.1) (cfg.cget bg.2) (cfg.cget (join cfg.delimiter bg.1 bg.2))
      · simp [transformStep, mergeCond, scoreOf, score_code_eq_spec, h1, h2, h3]
      · simp [transformStep, mergeCond, scoreOf, score_code_eq_spec, h1, h2, h3]
    · simp [transformStep, mergeCond, scoreOf, score_code_eq_spec, h1, h2]
  · simp [transformStep, mergeCond, scoreOf, score_code_eq_spec, h1]

lemma map_fst_zip_tail (s : List Token) : (s.zip s.tail).map Prod.fst = s.dropLast := by
  induction s with
  | nil => rfl
  | cons a rest ih =>
      cases rest with
      | nil => rfl
      | cons b rest2 =>
          simp only [List.tail_cons, List.zip_cons_cons, List.map_cons] at ih ⊢
          rw [show ((b :: rest2).zip rest2).map Prod.fst = (b :: rest2).dropLast from ih]
          rfl

lemma foldl_no_merge (cfg : TCfg) (pairs : List (Token × Token)) (acc : List Token)
    (h : ∀ bg ∈ pairs, ¬ mergeCond cfg bg) :
    pairs.foldl (transformStep cfg) (acc, false) = (acc ++ pairs.map Prod.fst, false) := by
  induction pairs generalizing acc with
  | nil => simp
  | cons bg rest ih =>
      have hbg := h bg (by simp)
      rw [List.foldl_cons, transformStep_false, if_neg hbg,
        ih (acc ++ [bg.1]) (fun x hx => h x (by simp [hx]))]
      simp

lemma transformLoop_no_merge (cfg : TCfg) (s : List Token)
    (h : ∀ bg ∈ s.zip s.tail, ¬ mergeCond cfg bg) :
    transformLoop cfg s = (s.dropLast, false) := by
  unfold transformLoop
  rw [foldl_no_merge cfg _ [] h, List.nil_append, map_fst_zip_tail]

lemma scoreOf_approx (mc thr : ℚ) (delim : Token) (sk : CMSketchCounter)
    (bg : Token × Token) : scoreOf (approxCfg mc thr delim sk) bg = 0 := by
  unfold scoreOf scoreSpec approxCfg sketchLen
  split_ifs with h
  · rfl
  · simp

lemma no_merge_approx (mc thr : ℚ) (delim : Token) (sk : CMSketchCounter)
    (h : 0 < thr) (bg : Token × Token) :
    ¬ mergeCond (approxCfg mc thr delim sk) bg := by
  rintro ⟨-, -, hlt⟩
  rw [scoreOf_approx] at hlt
  exact absurd (lt_trans h hlt) (lt_irrefl 0)

lemma dropLast_append_getLast_of_some (s : List Token) (t : Token)
    (h : s.getLast? = some t) : s.dropLast ++ [t] = s :=
  List.dropLast_append_getLast? t (Option.mem_def.mpr h)

/-- C1: in approximate mode (exact_count = False, positive threshold as the
constructor enforces), transform returns every sentence unchanged: the
sketch's len() is the constant 0, so every computed score is 0, never above
the strictly positive threshold; no pair merges and every token, the final
one included, is emitted standalone. -/
theorem phrases_C1 (mc thr : ℚ) (delim : Token) (sk : CMSketchCounter)
    (s : List Token) (h : 0 < thr) :
    transform (approxCfg mc thr delim sk) s = s := by
  unfold transform
  rw [transformLoop_no_merge _ _ (fun bg _ => no_merge_approx mc thr delim sk h bg)]
  cases hgl : s.getLast? with
  | none =>
      have : s = [] := List.getLast?_eq_none_iff.mp hgl
      subst this
      rfl
  | some t =>
      have hex : (approxCfg mc thr delim sk).exact_count = false := rfl
      rw [finalAppend, if_pos (Or.inl hex)]
      exact dropLast_append_getLast_of_some s t hgl

/-- Witness for C1. -/
theorem phrases_C1_witness :
    transform (approxCfg 1 1 "_" bugSketch) ["new", "york"] = ["new", "york"] :=
  phrases_C1 1 1 "_" bugSketch ["new", "york"] (by norm_num)

/-- C4: transform emits the final token standalone only if it was not
consumed by a merge of the last adjacent pair and, in exact mode, only if it
is a known key of the counter. In approximate mode (positive threshold, as
the constructor enforces) the loop never merges at all, so the flag recording
that the final token was consumed is always clear and the unconditional final
emission duplicates nothing. -/
theorem phrases_C4 :
    (∀ (mc thr : ℚ) (delim : Token) (v : Vocab) (s : List Token) (t : Token),
      s.getLast? = some t →
      transform (exactCfg mc thr delim v) s
        = (transformLoop (exactCfg mc thr delim v) s).1 ++ [t] →
      (transformLoop (exactCfg mc thr delim v) s).2 = false ∧ containsV v t = true)
    ∧ (∀ (mc thr : ℚ) (delim : Token) (sk : CMSketchCounter) (s : List Token),
      0 < thr → (transformLoop (approxCfg mc thr delim sk) s).2 = false) := by
  constructor
  · intro mc thr delim v s t hgl htr
    unfold transform at htr
    rw [hgl] at htr
    by_cases hc : (exactCfg mc thr delim v).exact_count = false
        ∨ ((exactCfg mc thr delim v).ccontains t = true
            ∧ (transformLoop (exactCfg mc thr delim v) s).2 = false)
    · rcases hc with hfalse | hc
      · exact absurd hfalse (by simp [exactCfg])
      · exact ⟨hc.2, hc.1⟩
    · rw [finalAppend, if_neg hc] at htr
      exfalso
      have hlen := congrArg List.length htr
      simp at hlen
  · intro mc thr delim sk s h
    rw [transformLoop_no_merge _ _ (fun bg _ => no_merge_approx mc thr delim sk h bg)]

/-- Witness for C4 at concrete models and sentences. -/
theorem phrases_C4_witness :
    ((transformLoop (exactCfg 1 1 "_" [("a", 1)]) ["a"]).2 = false
      ∧ containsV [("a", 1)] "a" = true)
    ∧ (transformLoop (approxCfg 1 1 "_" bugSketch0) ["a", "b"]).2 = false := by
  constructor
  · exact phrases_C4.1 1 1 "_" [("a", 1)] ["a"] "a" (by decide) (by decide)
  · exact phrases_C4.2 1 1 "_" bugSketch0 ["a", "b"] (by norm_num)

/-- C5: for a pair that passes the presence checks while the previous pair
was not merged, the loop merges exactly when the score -- 0 when pa <= 0 or
pb <= 0, otherwise (pab - min_count) / pa / pb * threshold * N with
N = len(vocab) -- is strictly greater than the threshold; otherwise the left
token is emitted standalone. -/
theorem phrases_C5 (cfg : TCfg) (acc : List Token) (bg : Token × Token)
    (h1 : cfg.exact_count = false ∨ (cfg.ccontains bg.1 = true ∧ cfg.ccontains bg.2 = true))
    (h2 : cfg.exact_count = false ∨ cfg.ccontains (join cfg.delimiter bg.1 bg.2) = true) :
    (transformStep cfg (acc, false) bg = (acc ++ [join cfg.delimiter bg.1 bg.2], true)
      ↔ cfg.threshold < scoreSpec cfg.min_count cfg.threshold cfg.clen
          (cfg.cget bg.1) (cfg.cget bg.2) (cfg.cget (join cfg.delimiter bg.1 bg.2)))
    ∧ (¬ cfg.threshold < scoreSpec cfg.min_count cfg.threshold cfg.clen
          (cfg.cget bg.1) (cfg.cget bg.2) (cfg.cget (join cfg.delimiter bg.1 bg.2)) →
        transformStep cfg (acc, false) bg = (acc ++ [bg.1], false)) := by
  constructor
  · rw [transformStep_false]
    constructor
    · intro he
      by_contra hs
      rw [if_neg (fun hm => hs hm.2.2)] at he
      exact absurd (congrArg Prod.snd he) (by simp)
    · intro hs
      rw [if_pos ⟨h1, h2, hs⟩]
  · intro hs
    rw [transformStep_false, if_neg (fun hm => hs hm.2.2)]

/-- Witness for C5: a qualifying pair is merged. -/
theorem phrases_C5_witness :
    transformStep (exactCfg 1 1 "_" [("a", 2), ("b", 2), ("a_b", 9)]) ([], false) ("a", "b")
      = (["a_b"], true) := by
  have h := phrases_C5 (exactCfg 1 1 "_" [("a", 2), ("b", 2), ("a_b", 9)]) [] ("a", "b")
    (by decide) (by decide)
  refine h.1.mpr ?_
  have e : (1 : ℚ) < scoreSpec 1 1 3 ((2 : Int) : ℚ) ((2 : Int) : ℚ) ((9 : Int) : ℚ) := by
    norm_num [scoreSpec]
  exact e

/-- All adjacent pairs of s score at most the threshold. -/
def noQualifyingPairs (cfg : TCfg) (s : List Token) : Prop :=
  ∀ bg ∈ s.zip s.tail, scoreOf cfg bg ≤ cfg.threshold

instance noQualifyingPairsDecidable (cfg : TCfg) (s : List Token) :
    Decidable (noQualifyingPairs cfg s) := by
  unfold noQualifyingPairs
  infer_instance

lemma no_merge_of_noQualifyingPairs (cfg : TCfg) (s : List Token)
    (h : noQualifyingPairs cfg s) :
    ∀ bg ∈ s.zip s.tail, ¬ mergeCond cfg bg := by
  intro bg hbg hm
  exact absurd (h bg hbg) (not_le.mpr hm.2.2)

/-- C7 (amended): when no adjacent pair scores above the threshold, transform
returns the sentence unchanged in approximate mode; in exact mode it returns
the sentence unchanged when the final token is a known key of the counter and
the sentence with its final token dropped otherwise (the empty sentence maps
to itself). -/
theorem phrases_C7 :
    (∀ (mc thr : ℚ) (delim : Token) (sk : CMSketchCounter) (s : List Token),
      noQualifyingPairs (approxCfg mc thr delim sk) s →
      transform (approxCfg mc thr delim sk) s = s)
    ∧ (∀ (mc thr : ℚ) (delim : Token) (v : Vocab) (s : List Token) (t : Token),
      noQualifyingPairs (exactCfg mc thr delim v) s → s.getLast? = some t →
      transform (exactCfg mc thr delim v) s
        = (if containsV v t = true then s else s.dropLast))
    ∧ (∀ (mc thr : ℚ) (delim : Token) (v : Vocab),
      transform (exactCfg mc thr delim v) [] = []) := by
  refine ⟨?_, ?_, ?_⟩
  · intro mc thr delim sk s h
    unfold transform
    rw [transformLoop_no_merge _ _ (no_merge_of_noQualifyingPairs _ _ h)]
    cases hgl : s.getLast? with
    | none =>
        have : s = [] := List.getLast?_eq_none_iff.mp hgl
        subst this
        rfl
    | some t =>
        have hex : (approxCfg mc thr delim sk).exact_count = false := rfl
        rw [finalAppend, if_pos (Or.inl hex)]
        exact dropLast_append_getLast_of_some s t hgl
  · intro mc thr delim v s t h hgl
    unfold transform
    rw [transformLoop_no_merge _ _ (no_merge_of_noQualifyingPairs _ _ h), hgl]
    by_cases hct : containsV v t = true
    · have hct2 : (exactCfg mc thr delim v).ccontains t = true := hct
      rw [finalAppend, if_pos (Or.inr ⟨hct2, rfl⟩), if_pos hct]
      exact dropLast_append_getLast_of_some s t hgl
    · have hneg : ¬ ((exactCfg mc thr delim v).exact_count = false
          ∨ ((exactCfg mc thr delim v).ccontains t = true
              ∧ ((s.dropLast, false) : List Token × Bool).2 = false)) := by
        rintro (hfalse | hc)
        · exact absurd hfalse (by simp [exactCfg])
        · exact hct hc.1
      rw [finalAppend, if_neg hneg, if_neg hct]
  · intro mc thr delim v
    rfl

/-- The concrete counter refuting C7 as stated. -/
def cexVocab : Vocab := [("a", 5), ("b", 5), ("a_b", 1)]

lemma cex_noQual : noQualifyingPairs (exactCfg 1 1 "_" cexVocab) ["a", "b", "c"] := by
  intro bg hbg
  have hbg2 : bg = ("a", "b") ∨ bg = ("b", "c") := by simpa using hbg
  rcases hbg2 with rfl | rfl
  · have he : scoreOf (exactCfg 1 1 "_" cexVocab) ("a", "b")
        = scoreSpec 1 1 3 ((5 : Int) : ℚ) ((5 : Int) : ℚ) ((1 : Int) : ℚ) := rfl
    rw [he]
    show scoreSpec 1 1 3 ((5 : Int) : ℚ) ((5 : Int) : ℚ) ((1 : Int) : ℚ) ≤ (1 : ℚ)
    norm_num [scoreSpec]
  · have he : scoreOf (exactCfg 1 1 "_" cexVocab) ("b", "c")
        = scoreSpec 1 1 3 ((5 : Int) : ℚ) ((0 : Int) : ℚ) ((0 : Int) : ℚ) := rfl
    rw [he]
    show scoreSpec 1 1 3 ((5 : Int) : ℚ) ((0 : Int) : ℚ) ((0 : Int) : ℚ) ≤ (1 : ℚ)
    norm_num [scoreSpec]

lemma cex_transform : transform (exactCfg 1 1 "_" cexVocab) ["a", "b", "c"] = ["a", "b"] := by
  unfold transform
  rw [transformLoop_no_merge _ _ (no_merge_of_noQualifyingPairs _ _ cex_noQual)]
  decide

/-- C7 counterexample: in exact mode, on the sentence ["a", "b", "c"] whose
adjacent pairs all score at most the threshold, transform drops the unknown
final token "c" and returns ["a", "b"], not the unchanged sentence. -/
theorem phrases_C7_counterexample :
    noQualifyingPairs (exactCfg 1 1 "_" cexVocab) ["a", "b", "c"]
    ∧ transform (exactCfg 1 1 "_" cexVocab) ["a", "b", "c"] ≠ ["a", "b", "c"]
    ∧ transform (exactCfg 1 1 "_" cexVocab) ["a", "b", "c"] = ["a", "b"] := by
  refine ⟨cex_noQual, ?_, cex_transform⟩
  rw [cex_transform]
  decide

/-- Witness for the amended C7. -/
theorem phrases_C7_witness :
    transform (approxCfg 1 1 "_" bugSketch0) ["x", "y"] = ["x", "y"]
    ∧ transform (exactCfg 1 1 "_" cexVocab) ["a", "b", "c"] = ["a", "b"] := by
  constructor
  · refine phrases_C7.1 1 1 "_" bugSketch0 ["x", "y"] ?_
    intro bg hbg
    rw [scoreOf_approx]
    show (0 : ℚ) ≤ (1 : ℚ)
    norm_num
  · have h := phrases_C7.2.1 1 1 "_" cexVocab ["a", "b", "c"] "c" cex_noQual (by decide)
    rw [h, if_neg (by decide)]
    rfl

/-- The per-sentence counting of learn_vocab: for each adjacent pair,
increment the first unigram key and the joined bigram key by 1; after the
loop, increment the final token's key (skipped by the pair loop) when the
sentence is non-empty. -/
def processSentence (delim : Token) (v : Vocab) (s : List Token) : Vocab :=
  let v1 := (s.zip s.tail).foldl
    (fun acc bg => updateCounts (updateCounts acc bg.1 1) (join delim bg.1 bg.2) 1) v
  match s.getLast? with
  | some w => updateCounts v1 w 1
  | none => v1

/-- One sentence of Phrases.learn_vocab in exact mode: count the sentence,
then if len(vocab) > max_vocab_size prune at the current min_reduce and
increment min_reduce. -/
def learnStep (cap : Int) (delim : Token) (st : Nat × Vocab) (s : List Token) :
    Nat × Vocab :=
  let v := processSentence delim st.2 s
  if (vocabLen v : Int) > cap then (st.1 + 1, pruneVocab v (st.1 : Int)) else (st.1, v)

/-- Phrases.learn_vocab in exact mode over a finite sentence stream, starting
from min_reduce = 1 and the empty counter; returns (min_reduce, vocab). -/
def learnVocabExact (sentences : List (List Token)) (cap : Int) (delim : Token) :
    Nat × Vocab :=
  sentences.foldl (learnStep cap delim) (1, [])

/-- The per-sentence counting of learn_vocab on the sketch counter. -/
def processSentenceApprox (delim : Token) (sk : CMSketchCounter) (s : List Token) :
    CMSketchCounter :=
  let sk1 := (s.zip s.tail).foldl
    (fun acc bg => sketchUpdateCounts (sketchUpdateCounts acc bg.1 1) (join delim bg.1 bg.2) 1) sk
  match s.getLast? with
  | some w => sketchUpdateCounts sk1 w 1
  | none => sk1

/-- One sentence of Phrases.learn_vocab in approximate mode: len(vocab) is
the sketch's constant 0; when it exceeds max_vocab_size the source increments
min_reduce but does not prune (exact_count is false). -/
def learnStepApprox (cap : Int) (delim : Token) (st : Nat × CMSketchCounter)
    (s : List Token) : Nat × CMSketchCounter :=
  let sk := processSentenceApprox delim st.2 s
  if (sketchLen sk : Int) > cap then (st.1 + 1, sk) else (st.1, sk)

/-- Phrases.learn_vocab in approximate mode; the fresh sketch (whose random
hash coefficients the constructor draws) is an explicit parameter. -/
def learnVocabApprox (sentences : List (List Token)) (cap : Int) (delim : Token)
    (fresh : CMSketchCounter) : Nat × CMSketchCounter :=
  sentences.foldl (learnStepApprox cap delim) (1, fresh)

/-- Phrases.add_vocab in exact mode, acting on the model state
(min_reduce, vocab): learn into a fresh separate counter, set min_reduce to
the max of the old and the pass's value, merge each learned count into the
accumulated counter via update_counts, and if the capacity is then exceeded
prune at min_reduce and increment it once more. -/
def addVocabExact (cap : Int) (delim : Token) (mr0 : Nat) (v0 : Vocab)
    (sentences : List (List Token)) : Nat × Vocab :=
  let p := learnVocabExact sentences cap delim
  let mr1 := max mr0 p.1
  let v1 := p.2.foldl (fun acc kv => updateCounts acc kv.1 kv.2) v0
  if (vocabLen v1 : Int) > cap then (mr1 + 1, pruneVocab v1 (mr1 : Int)) else (mr1, v1)

/-- The numpy table addition self.vocab.count += vocab.count (the sketch
linearity merge). -/
def sketchMerge (sk other : CMSketchCounter) : CMSketchCounter :=
  { sk with count := List.zipWith (List.zipWith (fun x y => x + y)) sk.count other.count }

/-- Phrases.add_vocab in approximate mode: learn into a fresh sketch, then
add the tables; the model's min_reduce is not touched. -/
def addVocabApprox (cap : Int) (delim : Token) (mr0 : Nat) (sk0 : CMSketchCounter)
    (fresh : CMSketchCounter) (sentences : List (List Token)) :
    Nat × CMSketchCounter :=
  let p := learnVocabApprox sentences cap delim fresh
  (mr0, sketchMerge sk0 p.2)

/-- The exact counter built with pruning disabled: the reference for runs in
which the vocabulary never exceeds the capacity. -/
def vocabNoPrune (delim : Token) (sentences : List (List Token)) : Vocab :=
  sentences.foldl (processSentence delim) []

lemma getCount_updateCounts (v : Vocab) (k : Token) (c : Int) (x : Token) :
    getCount (updateCounts v k c) x = getCount v x + (if k = x then c else 0) := by
  induction v with
  | nil =>
      by_cases h : k = x
      · subst h
        simp [updateCounts, getCount]
      · simp [updateCounts, getCount, h]
  | cons kv rest ih =>
      obtain ⟨k0, v0⟩ := kv
      by_cases hk0 : k0 = k
      · subst hk0
        by_cases hx : k0 = x
        · subst hx
          simp [updateCounts, getCount]
        · simp [updateCounts, getCount, hx]
      · by_cases hx : k0 = x
        · subst hx
          have hne : k ≠ k0 := fun he => hk0 he.symm
          simp [updateCounts, getCount, hk0, hne]
        · simp [updateCounts, getCount, hk0, hx, ih]

lemma vocabLen_le_updateCounts (v : Vocab) (k : Token) (c : Int) :
    vocabLen v ≤ vocabLen (updateCounts v k c) := by
  induction v with
  | nil => simp [updateCounts, vocabLen]
  | cons kv rest ih =>
      obtain ⟨k0, v0⟩ := kv
      by_cases h : k0 = k
      · simp [updateCounts, h, vocabLen]
      · simp only [updateCounts, if_neg h, vocabLen, List.length_cons]
        exact Nat.succ_le_succ ih

lemma vocabLen_le_processSentence (delim : Token) (v : Vocab) (s : List Token) :
    vocabLen v ≤ vocabLen (processSentence delim v s) := by
  have hfold : ∀ (ps : List (Token × Token)) (w : Vocab),
      vocabLen w ≤ vocabLen (ps.foldl (fun acc bg =>
        updateCounts (updateCounts acc bg.1 1) (join delim bg.1 bg.2) 1) w) := by
    intro ps
    induction ps with
    | nil => intro w; simp
    | cons bg rest ih =>
        intro w
        refine le_trans (le_trans (vocabLen_le_updateCounts w bg.1 1) ?_) (ih _)
        exact vocabLen_le_updateCounts (updateCounts w bg.1 1) (join delim bg.1 bg.2) 1
  unfold processSentence
  cases hgl : s.getLast? with
  | none => exact hfold _ v
  | some w =>
      exact le_trans (hfold _ v) (vocabLen_le_updateCounts _ w 1)

lemma vocabLen_le_foldl (delim : Token) (ss : List (List Token)) (v : Vocab) :
    vocabLen v ≤ vocabLen (ss.foldl (processSentence delim) v) := by
  induction ss generalizing v with
  | nil => simp
  | cons s rest ih =>
      exact le_trans (vocabLen_le_processSentence delim v s) (ih _)

lemma learn_foldl_no_prune (cap : Int) (delim : Token) (ss : List (List Token))
    (mr : Nat) (v : Vocab)
    (hcap : (vocabLen (ss.foldl (processSentence delim) v) : Int) ≤ cap) :
    ss.foldl (learnStep cap delim) (mr, v) = (mr, ss.foldl (processSentence delim) v) := by
  induction ss generalizing v with
  | nil => simp
  | cons s rest ih =>
      have hfull : (vocabLen (rest.foldl (processSentence delim)
          (processSentence delim v s)) : Int) ≤ cap := by
        simpa using hcap
      have h1 : (vocabLen (processSentence delim v s) : Int) ≤ cap := by
        have hm := vocabLen_le_foldl delim rest (processSentence delim v s)
        exact le_trans (by exact_mod_cast hm) hfull
      have hstep : learnStep cap delim (mr, v) s = (mr, processSentence delim v s) := by
        unfold learnStep
        rw [if_neg (not_lt.mpr h1)]
      rw [List.foldl_cons, List.foldl_cons, hstep]
      exact ih _ hfull

lemma learnVocabExact_no_prune (cap : Int) (delim : Token) (ss : List (List Token))
    (hcap : (vocabLen (vocabNoPrune delim ss) : Int) ≤ cap) :
    learnVocabExact ss cap delim = (1, vocabNoPrune delim ss) :=
  learn_foldl_no_prune cap delim ss 1 [] hcap

/-- The contribution of one sentence to the count of key K: occurrences of K
as the left element of an adjacent pair, plus adjacent pairs whose joined
bigram equals K, plus one if K is the final token. -/
def sentenceKeyCount (delim : Token) (K : Token) (s : List Token) : Nat :=
  (s.zip s.tail).countP (fun bg => decide (bg.1 = K))
    + (s.zip s.tail).countP (fun bg => decide (join delim bg.1 bg.2 = K))
    + (if s.getLast? = some K then 1 else 0)

/-- Total contribution of a stream to the count of key K. -/
def streamKeyCount (delim : Token) (K : Token) (sentences : List (List Token)) : Nat :=
  (sentences.map (sentenceKeyCount delim K)).sum

lemma getCount_pairs_foldl (delim : Token) (K : Token) (ps : List (Token × Token))
    (v : Vocab) :
    getCount (ps.foldl (fun acc bg =>
        updateCounts (updateCounts acc bg.1 1) (join delim bg.1 bg.2) 1) v) K
      = getCount v K + (ps.countP (fun bg => decide (bg.1 = K)) : Int)
        + (ps.countP (fun bg => decide (join delim bg.1 bg.2 = K)) : Int) := by
  induction ps generalizing v with
  | nil => simp
  | cons bg rest ih =>
      rw [List.foldl_cons, ih, getCount_updateCounts, getCount_updateCounts,
        List.countP_cons, List.countP_cons]
      simp only [decide_eq_true_eq]
      split_ifs <;> push_cast <;> ring

lemma getCount_processSentence (delim : Token) (K : Token) (v : Vocab) (s : List Token) :
    getCount (processSentence delim v s) K
      = getCount v K + (sentenceKeyCount delim K s : Int) := by
  unfold processSentence sentenceKeyCount
  cases hgl : s.getLast? with
  | none =>
      rw [getCount_pairs_foldl,
        if_neg (by simp : ¬ (none : Option Token) = some K)]
      push_cast
      ring
  | some w =>
      rw [getCount_updateCounts, getCount_pairs_foldl]
      simp only [Option.some.injEq]
      split_ifs with hw
      · subst hw
        push_cast
        ring
      · push_cast
        ring

lemma getCount_foldl_sentences (delim : Token) (K : Token) (ss : List (List Token))
    (v : Vocab) :
    getCount (ss.foldl (processSentence delim) v) K
      = getCount v K + (streamKeyCount delim K ss : Int) := by
  induction ss generalizing v with
  | nil => simp [streamKeyCount]
  | cons s rest ih =>
      rw [List.foldl_cons, ih, getCount_processSentence]
      simp only [streamKeyCount, List.map_cons, List.sum_cons]
      push_cast
      ring

lemma getCount_vocabNoPrune (delim : Token) (K : Token) (ss : List (List Token)) :
    getCount (vocabNoPrune delim ss) K = (streamKeyCount delim K ss : Int) := by
  unfold vocabNoPrune
  rw [getCount_foldl_sentences]
  simp [getCount]

lemma countP_zip_fst (s : List Token) (K : Token) :
    (s.zip s.tail).countP (fun bg => decide (bg.1 = K))
      = s.dropLast.countP (fun t => decide (t = K)) := by
  rw [← map_fst_zip_tail, List.countP_map]
  rfl

lemma countP_dropLast_add_last (s : List Token) (K : Token) :
    s.dropLast.countP (fun t => decide (t = K)) + (if s.getLast? = some K then 1 else 0)
      = s.countP (fun t => decide (t = K)) := by
  induction s using List.reverseRecOn with
  | nil => simp
  | append_singleton l x ih =>
      rw [List.dropLast_concat, List.getLast?_concat, List.countP_append]
      by_cases hx : x = K <;> simp [hx, List.countP_cons]

lemma sentenceKeyCount_unigram (delim K : Token) (s : List Token)
    (hj : ∀ bg ∈ s.zip s.tail, join delim bg.1 bg.2 ≠ K) :
    sentenceKeyCount delim K s = s.countP (fun t => decide (t = K)) := by
  unfold sentenceKeyCount
  have h2 : (s.zip s.tail).countP (fun bg => decide (join delim bg.1 bg.2 = K)) = 0 := by
    rw [List.countP_eq_zero]
    intro bg hbg
    simp [hj bg hbg]
  rw [h2, Nat.add_zero, countP_zip_fst, countP_dropLast_add_last]

lemma sentenceKeyCount_bigram (delim : Token) (a b : Token) (s : List Token)
    (hnt : join delim a b ∉ s)
    (hinj : ∀ bg ∈ s.zip s.tail, join delim bg.1 bg.2 = join delim a b → bg = (a, b)) :
    sentenceKeyCount delim (join delim a b) s
      = (s.zip s.tail).countP (fun bg => decide (bg = (a, b))) := by
  unfold sentenceKeyCount
  have h1 : (s.zip s.tail).countP (fun bg => decide (bg.1 = join delim a b)) = 0 := by
    rw [List.countP_eq_zero]
    intro bg hbg
    obtain ⟨x, y⟩ := bg
    have hx : x ∈ s := (List.of_mem_zip hbg).1
    simp only [decide_eq_true_eq]
    intro he
    exact hnt (he ▸ hx)
  have h3 : (if s.getLast? = some (join delim a b) then 1 else 0) = 0 := by
    rw [if_neg]
    intro he
    exact hnt (List.mem_of_getLast?_eq_some he)
  have h2 : (s.zip s.tail).countP (fun bg => decide (join delim bg.1 bg.2 = join delim a b))
      = (s.zip s.tail).countP (fun bg => decide (bg = (a, b))) := by
    refine List.countP_congr ?_
    intro bg hbg
    simp only [decide_eq_true_eq]
    constructor
    · exact hinj bg hbg
    · intro he
      rw [he]
  rw [h1, h2, h3, Nat.zero_add, Nat.add_zero]

/-- C8: in exact mode, when pruning never triggers (the no-prune vocabulary
stays within capacity), learn_vocab's counter maps every unigram key K that
never coincides with a joined bigram to the exact number of occurrences of K
across the sentences, and every joined-bigram key (whose join neither occurs
as a token nor collides with the join of a different pair) to the exact
number of adjacent occurrences of that pair. -/
theorem phrases_C8 (ss : List (List Token)) (cap : Int) (delim : Token)
    (hcap : (vocabLen (vocabNoPrune delim ss) : Int) ≤ cap) :
    (∀ K : Token, (∀ s ∈ ss, ∀ bg ∈ s.zip s.tail, join delim bg.1 bg.2 ≠ K) →
      getCount (learnVocabExact ss cap delim).2 K
        = (((ss.map (fun s => s.countP (fun t => decide (t = K)))).sum : Nat) : Int))
    ∧ (∀ a b : Token, (∀ s ∈ ss, join delim a b ∉ s) →
      (∀ s ∈ ss, ∀ bg ∈ s.zip s.tail, join delim bg.1 bg.2 = join delim a b → bg = (a, b)) →
      getCount (learnVocabExact ss cap delim).2 (join delim a b)
        = ((((ss.map (fun s =>
            (s.zip s.tail).countP (fun bg => decide (bg = (a, b))))).sum : Nat)) : Int)) := by
  constructor
  · intro K hj
    rw [learnVocabExact_no_prune cap delim ss hcap]
    show getCount (vocabNoPrune delim ss) K = _
    rw [getCount_vocabNoPrune]
    have h : streamKeyCount delim K ss
        = (ss.map (fun s => s.countP (fun t => decide (t = K)))).sum := by
      unfold streamKeyCount
      refine congrArg List.sum (List.map_congr_left ?_)
      intro s hs
      exact sentenceKeyCount_unigram delim K s (hj s hs)
    exact_mod_cast h
  · intro a b hnt hinj
    rw [learnVocabExact_no_prune cap delim ss hcap]
    show getCount (vocabNoPrune delim ss) (join delim a b) = _
    rw [getCount_vocabNoPrune]
    have h : streamKeyCount delim (join delim a b) ss
        = (ss.map (fun s =>
            (s.zip s.tail).countP (fun bg => decide (bg = (a, b))))).sum := by
      unfold streamKeyCount
      refine congrArg List.sum (List.map_congr_left ?_)
      intro s hs
      exact sentenceKeyCount_bigram delim a b s (hnt s hs) (hinj s hs)
    exact_mod_cast h

/-- Witness for C8 on a small concrete corpus. -/
theorem phrases_C8_witness :
    getCount (learnVocabExact [["a", "b"], ["a"]] 100 "_").2 "a"
      = ((([["a", "b"], ["a"]].map
          (fun s => s.countP (fun t => decide (t = "a")))).sum : Nat) : Int)
    ∧ getCount (learnVocabExact [["a", "b"], ["a"]] 100 "_").2 (join "_" "a" "b")
      = ((([["a", "b"], ["a"]].map (fun s =>
          (s.zip s.tail).countP (fun bg => decide (bg = ("a", "b"))))).sum : Nat) : Int) := by
  have h := phrases_C8 [["a", "b"], ["a"]] 100 "_" (by decide)
  exact ⟨h.1 "a" (by decide), h.2 "a" "b" (by decide) (by decide)⟩

lemma learn_foldl_mr_mono (cap : Int) (delim : Token) (ss : List (List Token))
    (st : Nat × Vocab) : st.1 ≤ (ss.foldl (learnStep cap delim) st).1 := by
  induction ss generalizing st with
  | nil => simp
  | cons s rest ih =>
      rw [List.foldl_cons]
      refine le_trans ?_ (ih (learnStep cap delim st s))
      by_cases h : (vocabLen (processSentence delim st.2 s) : Int) > cap
      · have he : (learnStep cap delim st s).1 = st.1 + 1 := by simp [learnStep, h]
        omega
      · have he : (learnStep cap delim st s).1 = st.1 := by simp [learnStep, h]
        omega

lemma learnApprox_foldl_mr (cap : Int) (delim : Token) (hc : 0 ≤ cap)
    (ss : List (List Token)) (st : Nat × CMSketchCounter) :
    (ss.foldl (learnStepApprox cap delim) st).1 = st.1 := by
  induction ss generalizing st with
  | nil => simp
  | cons s rest ih =>
      rw [List.foldl_cons, ih]
      have h : ¬ ((sketchLen (processSentenceApprox delim st.2 s) : Int) > cap) := by
        simp only [sketchLen, Nat.cast_zero]
        exact not_lt.mpr hc
      simp [learnStepApprox, h]

/-- C9: min_reduce starts at 1; a learning step either increments it by
exactly 1 (when the post-sentence vocabulary exceeds the capacity and pruning
is triggered) or leaves it unchanged; a full exact pass returns at least 1;
add_vocab in exact mode never decreases the model's min_reduce (it keeps the
max with the pass's value, plus at most one merge-time increment); in
approximate mode a pass over a non-negative capacity leaves the pass's
min_reduce at its initial value 1, and add_vocab leaves the model's
min_reduce untouched. -/
theorem phrases_C9 :
    (∀ (cap : Int) (delim : Token) (st : Nat × Vocab) (s : List Token),
      ((learnStep cap delim st s).1 = st.1 + 1
          ∧ (vocabLen (processSentence delim st.2 s) : Int) > cap)
        ∨ ((learnStep cap delim st s).1 = st.1
          ∧ ¬ (vocabLen (processSentence delim st.2 s) : Int) > cap))
    ∧ (∀ (ss : List (List Token)) (cap : Int) (delim : Token),
      1 ≤ (learnVocabExact ss cap delim).1)
    ∧ (∀ (cap : Int) (delim : Token) (mr0 : Nat) (v0 : Vocab) (ss : List (List Token)),
      mr0 ≤ (addVocabExact cap delim mr0 v0 ss).1)
    ∧ (∀ (ss : List (List Token)) (cap : Int) (delim : Token) (fresh : CMSketchCounter),
      0 ≤ cap → (learnVocabApprox ss cap delim fresh).1 = 1)
    ∧ (∀ (cap : Int) (delim : Token) (mr0 : Nat) (sk0 fresh : CMSketchCounter)
        (ss : List (List Token)),
      (addVocabApprox cap delim mr0 sk0 fresh ss).1 = mr0) := by
  refine ⟨?_, ?_, ?_, ?_, ?_⟩
  · intro cap delim st s
    by_cases h : (vocabLen (processSentence delim st.2 s) : Int) > cap
    · exact Or.inl ⟨by simp [learnStep, h], h⟩
    · exact Or.inr ⟨by simp [learnStep, h], h⟩
  · intro ss cap delim
    exact learn_foldl_mr_mono cap delim ss (1, [])
  · intro cap delim mr0 v0 ss
    by_cases h : (vocabLen ((learnVocabExact ss cap delim).2.foldl
        (fun acc kv => updateCounts acc kv.1 kv.2) v0) : Int) > cap
    · have he : (addVocabExact cap delim mr0 v0 ss).1
          = max mr0 (learnVocabExact ss cap delim).1 + 1 := by
        simp [addVocabExact, h]
      rw [he]
      exact le_trans (le_max_left _ _) (Nat.le_succ _)
    · have he : (addVocabExact cap delim mr0 v0 ss).1
          = max mr0 (learnVocabExact ss cap delim).1 := by
        simp [addVocabExact, h]
      rw [he]
      exact le_max_left _ _
  · intro ss cap delim fresh hc
    exact learnApprox_foldl_mr cap delim hc ss (1, fresh)
  · intro cap delim mr0 sk0 fresh ss
    rfl

/-- Witness for C9 at concrete inputs. -/
theorem phrases_C9_witness :
    (learnVocabApprox [["a", "b"]] 5 "_" bugSketch0).1 = 1
    ∧ 3 ≤ (addVocabExact 5 "_" 3 [] [["a"]]).1 :=
  ⟨phrases_C9.2.2.2.1 [["a", "b"]] 5 "_" bugSketch0 (by norm_num),
    phrases_C9.2.2.1 5 "_" 3 [] [["a"]]⟩

end GensimPhrases
